import Mathlib

/-!
Shallow embedding of the Track editing engine of `TrackApp/track.py`
(`class Track`), together with theorems settling the specification
claims about it.

Modelling conventions:

* The pandas dataframe `df_track` is modelled as a list of `Row`
  (the five persistent gpx columns `lat`, `lon`, `ele`, `segment`,
  `time`) plus three parallel derived-column lists (`distance`,
  `ele_pos_cum`, `ele_neg_cum`) held in the `Track` structure.
  Row positions in the list correspond both to the dataframe's
  positional index and to its label index: every mutating operation
  of the source that leaves rows in place keeps labels `0..n-1`, and
  the operations that rearrange rows (`add_gpx`, `remove_segment`,
  `change_order`) immediately call `reset_index(drop=True)`.
* Numeric values (`float32`/`float64` in the source) are modelled as
  exact rationals; `_force_columns_type`, which merely coerces dtypes,
  is the identity in this model.
* `NaN` values, which genuinely arise in the source (the first entry
  of `Series.diff()` and of the cumulative elevation columns), are
  modelled as `none : Option Rat`; pandas `cumsum` (with its default
  `skipna=True`) is modelled by `cumsumSkipna`.
* The geodesic distance of `geopy.distance.geodesic(...).km` is an
  external library numeric; it is abstracted as a parameter
  `geo : Rat -> Rat -> Rat -> Rat -> Rat` (arguments: from-lat,
  from-lon, to-lat, to-lon).  The source wraps the call in
  `try/except ValueError: return 0`, which fires exactly for the first
  row (whose shifted predecessor coordinates are `NaN`, rejected by
  geopy's finiteness check), so the first per-step distance is `0`.
* Operations that raise exceptions on some inputs in Python
  (`_update_summary` evaluates `distance.iloc[-1]`, an `IndexError`
  on an empty table; `divide_segment` evaluates `max(...)`, a
  `ValueError` on an empty table) return `Option`: `none` models the
  raised exception.
* The UI-selection fields `selected_segment` / `selected_segment_idx`
  (matplotlib objects, touched by no claim) are omitted.
-/

namespace TrackApp

/-- One row of the unified table: the five persistent columns of
`Track.columns = ['lat', 'lon', 'ele', 'segment', 'time']`.
`time` is a timestamp measured in hours, as an exact rational. -/
structure Row where
  lat : Rat
  lon : Rat
  ele : Rat
  seg : Int
  time : Rat
deriving DecidableEq, Repr

/-- One point coming out of the gpx adapter (`gpx.Gpx(file).to_pandas()`),
before `add_gpx` stamps the segment id onto it. -/
structure GpxPoint where
  lat : Rat
  lon : Rat
  ele : Rat
  time : Rat
deriving DecidableEq, Repr

/-- The `Track` aggregate: the unified table (rows plus the three derived
columns) and the scalar summary properties set in `Track.__init__`.
`totalUphill` / `totalDownhill` mirror the last entries of the cumulative
elevation columns, which can be the `NaN` marker (`none`) on a one-row
table. -/
structure Track where
  rows : List Row
  distance : List Rat
  elePosCum : List (Option Rat)
  eleNegCum : List (Option Rat)
  size : Int
  lastSegmentIdx : Int
  totalDistance : Rat
  totalUphill : Option Rat
  totalDownhill : Option Rat
  extremes : Rat × Rat × Rat × Rat
deriving DecidableEq, Repr

/-- The freshly constructed track of `Track.__init__`: empty table,
all summary scalars zero. -/
def Track.init : Track :=
  { rows := []
    distance := []
    elePosCum := []
    eleNegCum := []
    size := 0
    lastSegmentIdx := 0
    totalDistance := 0
    totalUphill := some 0
    totalDownhill := some 0
    extremes := (0, 0, 0, 0) }

/-- Running cumulative sum of a list (`numpy/pandas cumsum` on a
`NaN`-free column). -/
def cumsum (acc : Rat) : List Rat → List Rat
  | [] => []
  | x :: xs => (acc + x) :: cumsum (acc + x) xs

/-- Pandas `Series.cumsum()` with its default `skipna=True` on a column
that may hold `NaN` (`none`) entries: a `NaN` entry stays `NaN` in the
output and does not contribute to the running sum. -/
def cumsumSkipna (acc : Rat) : List (Option Rat) → List (Option Rat)
  | [] => []
  | none :: xs => none :: cumsumSkipna acc xs
  | some x :: xs => some (acc + x) :: cumsumSkipna (acc + x) xs

/-- Pandas `Series.diff()` on the `ele` column: `NaN` at the first row,
then consecutive differences. -/
def eleDiff (rows : List Row) : List (Option Rat) :=
  match rows with
  | [] => []
  | _ :: _ => none :: (rows.zip rows.tail).map (fun p => some (p.2.ele - p.1.ele))

/-- `Track._insert_positive_elevation`: elevation deltas with negative
entries zeroed (`NaN` compares false, so the first entry stays `NaN`),
then `cumsum` (skipna). -/
def computeElePosCum (rows : List Row) : List (Option Rat) :=
  cumsumSkipna 0 ((eleDiff rows).map (fun o =>
    match o with
    | none => none
    | some d => some (if d < 0 then 0 else d)))

/-- `Track._insert_negative_elevation`: elevation deltas with positive
entries zeroed, then `cumsum` (skipna). -/
def computeEleNegCum (rows : List Row) : List (Option Rat) :=
  cumsumSkipna 0 ((eleDiff rows).map (fun o =>
    match o with
    | none => none
    | some d => some (if d > 0 then 0 else d)))

/-- `Track._insert_distance`: per-step distances `p2p_distance`.  The
first row's shifted predecessor is `NaN`, geopy rejects non-finite
coordinates with a `ValueError`, and the `except` branch yields `0`;
every later step is `abs(geodesic((lat, lon), (lat_shift, lon_shift)).km)`
with the geodesic abstracted as `geo`. -/
def p2pDistance (geo : Rat → Rat → Rat → Rat → Rat) (rows : List Row) : List Rat :=
  match rows with
  | [] => []
  | _ :: _ =>
      0 :: (rows.zip rows.tail).map (fun p => |geo p.2.lat p.2.lon p.1.lat p.1.lon|)

/-- The recomputed `distance` column: cumulative sum of the per-step
distances. -/
def computeDistance (geo : Rat → Rat → Rat → Rat → Rat) (rows : List Row) : List Rat :=
  cumsum 0 (p2pDistance geo rows)

/-- `Track._update_extremes`: min/max latitude and longitude over the
whole table (`0` components on an empty table stand for pandas' `NaN`
min/max; the value is never read by any claim). -/
def computeExtremes (rows : List Row) : Rat × Rat × Rat × Rat :=
  match rows with
  | [] => (0, 0, 0, 0)
  | r :: rs =>
      (rs.foldl (fun m x => min m x.lat) r.lat,
       rs.foldl (fun m x => max m x.lat) r.lat,
       rs.foldl (fun m x => min m x.lon) r.lon,
       rs.foldl (fun m x => max m x.lon) r.lon)

/-- `Track._update_summary`: recompute the three derived columns and the
extremes, then read the scalar totals off the last row of each derived
column with `iloc[-1]`.  On an empty table `iloc[-1]` raises
`IndexError`, modelled by `none`. -/
def updateSummary (geo : Rat → Rat → Rat → Rat → Rat) (t : Track) : Option Track :=
  if t.rows = [] then none
  else
    some { t with
      distance := computeDistance geo t.rows
      elePosCum := computeElePosCum t.rows
      eleNegCum := computeEleNegCum t.rows
      extremes := computeExtremes t.rows
      totalDistance := (computeDistance geo t.rows).getLastD 0
      totalUphill := (computeElePosCum t.rows).getLastD none
      totalDownhill := (computeEleNegCum t.rows).getLastD none }

/-- `Track.add_gpx`: parse the file (the adapter's output is taken as the
point list `pts`), bump `size` and `last_segment_idx`, stamp the new
segment id on every point, append, reset the index, recompute the
summary and re-coerce column types (identity here). -/
def addGpx (geo : Rat → Rat → Rat → Rat → Rat) (t : Track)
    (pts : List GpxPoint) : Option Track :=
  let segId := t.lastSegmentIdx + 1
  let newRows := pts.map (fun p =>
    { lat := p.lat, lon := p.lon, ele := p.ele, seg := segId, time := p.time : Row })
  updateSummary geo { t with
    size := t.size + 1
    lastSegmentIdx := segId
    rows := t.rows ++ newRows }

/-- `Track.get_segment`: all rows whose `segment` column equals `index`,
in table order. -/
def getSegment (t : Track) (index : Int) : List Row :=
  t.rows.filter (fun r => r.seg = index)

/-- Core of `Track.reverse_segment`: walk the table; each row of the
named segment receives, in order, the next entry of `q` (the segment's
rows reversed) for its non-time columns, while keeping its own `time`.
The `time` column keeps its original per-label values because the
assignments `rev_segment['time'] = time[::-1]` and
`df_track.loc[mask] = rev_segment` both align on the (unchanged) index
labels, which cancels the attempted reversal. -/
def reverseRows (index : Int) : List Row → List Row → List Row
  | [], _ => []
  | r :: rs, q =>
      if r.seg = index then
        match q with
        | [] => r :: reverseRows index rs []
        | c :: q' => { c with time := r.time } :: reverseRows index rs q'
      else r :: reverseRows index rs q

/-- `Track.reverse_segment`: reverse the named segment's non-time columns
in place (the `time` column survives unchanged, see `reverseRows`), then
re-coerce types and recompute the summary. -/
def reverseSegment (geo : Rat → Rat → Rat → Rat → Rat) (t : Track)
    (index : Int) : Option Track :=
  updateSummary geo
    { t with rows := reverseRows index t.rows (getSegment t index).reverse }

/-- Python's `max` over the `segment` column; raises `ValueError`
(modelled `none`) on an empty table. -/
def segMax (rows : List Row) : Option Int :=
  match rows with
  | [] => none
  | r :: rs => some (rs.foldl (fun m x => max m x.seg) r.seg)

/-- `Track.divide_segment`: every row whose positional index is at or
past `divIndex` has its segment id incremented by one; `size` is
incremented and `last_segment_idx` is recomputed as the maximum of the
new `segment` column (a `ValueError` — `none` — on an empty table). -/
def divideSegment (t : Track) (divIndex : Nat) : Option Track :=
  let newRows := t.rows.mapIdx (fun i r =>
    if i < divIndex then r else { r with seg := r.seg + 1 })
  match segMax newRows with
  | none => none
  | some m => some { t with rows := newRows, size := t.size + 1, lastSegmentIdx := m }

/-- `Track.change_order`: relabel every row's segment id through
`newOrder` (a missing dictionary key is out of scope: `newOrder` is
total), then stable-sort by the new segment id with the original row
position as tiebreak, reset the index and recompute the summary. -/
def changeOrder (geo : Rat → Rat → Rat → Rat → Rat) (t : Track)
    (newOrder : Int → Int) : Option Track :=
  let relabeled := (t.rows.map (fun r => { r with seg := newOrder r.seg })).enum
  let sorted := relabeled.mergeSort (fun a b =>
    a.2.seg < b.2.seg || (a.2.seg = b.2.seg && a.1 ≤ b.1))
  updateSummary geo { t with rows := sorted.map (fun p => p.2) }

/-- `Track.remove_segment`: drop every row of the named segment, reset
the index, decrement `size`, recompute the summary (an `IndexError` —
`none` — if the remaining table is empty), then clear the table if
`size` reached zero.  Returns the updated track and the new `size`. -/
def removeSegment (geo : Rat → Rat → Rat → Rat → Rat) (t : Track)
    (index : Int) : Option (Track × Int) :=
  let kept := t.rows.filter (fun r => r.seg ≠ index)
  let newSize := t.size - 1
  match updateSummary geo { t with rows := kept, size := newSize } with
  | none => none
  | some t' =>
      if newSize = 0 then
        some ({ t' with rows := [], distance := [], elePosCum := [], eleNegCum := [] },
              newSize)
      else
        some (t', newSize)

/-- `Track.insert_timestamp` in flat mode (`consider_elevation=False`):
each row's `time` becomes
`initial_time + timedelta(hours=row['distance'] / desired_speed)`.
The per-row `distance` is read off the derived column, which must be
parallel to the rows (the source indexes `row['distance']`). -/
def insertTimestampFlat (t : Track) (initialTime desiredSpeed : Rat) : Track :=
  { t with rows := (t.rows.zip t.distance).map (fun p =>
      { p.1 with time := initialTime + p.2 / desiredSpeed }) }

/-- Row-selection step of `Track.insert_timestamp` in elevation-aware
mode (`consider_elevation=True`), lines
`dist_diff = np.diff(...)` and
`self.df_track = self.df_track[np.append(dist_diff != 0, True)]`:
the boolean mask holds `dist_diff != 0` for rows `0..n-2` and an
appended `True` for the final row, so row `i < n-1` is kept iff its
distance delta to the *following* row is nonzero, and the last row is
always kept.  The remainder of elevation-aware mode (slope fitting and
the wall-clock-bounded speed-correction loop) is not modelled: no claim
depends on it and the loop is bounded by real elapsed time. -/
def elevKeptRows (rows : List Row) (dist : List Rat) : List Row :=
  let distDiff := (dist.zip dist.tail).map (fun p => p.2 - p.1)
  let mask := distDiff.map (fun d => decide (d ≠ 0)) ++ [true]
  ((rows.zip mask).filter (fun p => p.2)).map (fun p => p.1)

/-- `Track._moving_average`: `ret = cumsum(a)`, then
`ret[n:] = ret[n:] - ret[:-n]` (right-hand side read from the original
`ret`), then `ret[n-1:] / n`.  Only reached with `n >= 1` (an empty
segment yields `n = 0` together with an empty `a`, where every step is
the empty array). -/
def movingAverage (a : List Rat) (n : Nat) : List Rat :=
  let ret := cumsum 0 a
  let shifted := ret.mapIdx (fun i x => if n ≤ i then x - ret.getD (i - n) 0 else x)
  (shifted.drop (n - 1)).map (fun x => x / (n : Rat))

/-- Window size of `Track.smooth_elevation`:
`int(np.ceil(df_segment.shape[0] * 0.05))`.  For every table size that
arises (far below `2^50`), the float product `L * 0.05` rounds to a
value with the same ceiling as the exact `L / 20`, so the window is the
exact ceiling of one-twentieth of the segment length. -/
def smoothWindow (len : Nat) : Nat :=
  (len + 19) / 20

/-- Replacement elevation sequence built by `Track.smooth_elevation`:
the lead-in ramp `elevation[0] + i * (elevation_ma[0] - elevation[0]) / n`
for `i in range(1, n)`, concatenated with the moving average. -/
def smoothedEle (elevation : List Rat) : List Rat :=
  let n := smoothWindow elevation.length
  let ma := movingAverage elevation n
  let e0 := elevation.headD 0
  let m0 := ma.headD 0
  ((List.range (n - 1)).map (fun (i : Nat) =>
      e0 + (((i + 1 : Nat) : Int) : Rat) * (m0 - e0) / ((n : Int) : Rat)))
    ++ ma

/-- Write-back step shared by `smooth_elevation` and `fix_elevation`
(`df_segment['ele'] = ...; self.df_track.loc[mask] = df_segment`): each
row of the named segment receives, in order, the next value of `vs` as
its new elevation; every other column and every other row is written
back unchanged.  In the source the value list always has exactly the
segment's length (pandas raises on a length mismatch when building the
column), so the `[]` fallback is never reached in a faithful run. -/
def setSegmentEle (index : Int) : List Row → List Rat → List Row
  | [], _ => []
  | r :: rs, vs =>
      if r.seg = index then
        match vs with
        | [] => r :: setSegmentEle index rs []
        | v :: vs' => { r with ele := v } :: setSegmentEle index rs vs'
      else r :: setSegmentEle index rs vs

/-- `Track.smooth_elevation`: replace the named segment's elevation
column with `smoothedEle` of its current elevations.  No summary
recomputation. -/
def smoothElevation (t : Track) (index : Int) : Track :=
  { t with rows :=
      setSegmentEle index t.rows (smoothedEle ((getSegment t index).map Row.ele)) }

/-- Shape of `Track.fix_elevation`: the named segment's elevation column
is replaced by `fixed_elevation`, a sequence computed from the segment's
rows and its slice of the `distance` column.  The numeric steep-zone
computation (threshold scanning, `np.polyfit`/`np.polyval` interpolation
and the moving-average tail, all over floats) is abstracted as the
parameter `fix`; in the source its result always has exactly the
segment's length (`fixed_elevation` is an in-place edit of the
segment-length array `ele_to_fix`).  No summary recomputation, and no
other column or row is written. -/
def fixElevation (fix : List Row → List Rat → List Rat) (t : Track)
    (index : Int) : Track :=
  let segDist := ((t.rows.zip t.distance).filter (fun p => p.1.seg = index)).map
    (fun p => p.2)
  { t with rows := setSegmentEle index t.rows (fix (getSegment t index) segDist) }

/-- A track whose derived columns and summary scalars agree with a fresh
recomputation from its rows: the postcondition `_update_summary`
establishes. -/
def Summarized (geo : Rat → Rat → Rat → Rat → Rat) (t : Track) : Prop :=
  t.distance = computeDistance geo t.rows ∧
  t.elePosCum = computeElePosCum t.rows ∧
  t.eleNegCum = computeEleNegCum t.rows ∧
  t.totalDistance = (computeDistance geo t.rows).getLastD 0 ∧
  t.totalUphill = (computeElePosCum t.rows).getLastD none ∧
  t.totalDownhill = (computeEleNegCum t.rows).getLastD none

instance (geo : Rat → Rat → Rat → Rat → Rat) (t : Track) :
    Decidable (Summarized geo t) := by
  unfold Summarized
  infer_instance

/-- Default row used with `List.getD` in indexed statements. -/
def defaultRow : Row :=
  { lat := 0, lon := 0, ele := 0, seg := 0, time := 0 }

/-- Combined geodesic surrogate used by concrete witness computations:
taxicab displacement. -/
def geoTaxi (la lo la' lo' : Rat) : Rat :=
  (la - la') + (lo - lo')

theorem cumsum_length (l : List Rat) (acc : Rat) :
    (cumsum acc l).length = l.length := by
  induction l generalizing acc with
  | nil => rfl
  | cons x xs ih => simp [cumsum, ih]

theorem cumsum_chain (l : List Rat) (acc : Rat) (h : ∀ x ∈ l, 0 ≤ x) :
    List.Chain' (· ≤ ·) (cumsum acc l) := by
  induction l generalizing acc with
  | nil => simp [cumsum]
  | cons x xs ih =>
      have hx : 0 ≤ x := h x (by simp)
      have hxs : ∀ y ∈ xs, 0 ≤ y := fun y hy => h y (by simp [hy])
      cases xs with
      | nil => simp [cumsum]
      | cons y ys =>
          have := ih (acc + x) hxs
          refine List.Chain'.cons ?_ this
          have hy : 0 ≤ y := hxs y (by simp)
          simp [cumsum]
          linarith

theorem p2pDistance_length (geo : Rat → Rat → Rat → Rat → Rat) (rows : List Row) :
    (p2pDistance geo rows).length = rows.length := by
  cases rows with
  | nil => rfl
  | cons r rs => simp [p2pDistance]

theorem p2pDistance_nonneg (geo : Rat → Rat → Rat → Rat → Rat) (rows : List Row) :
    ∀ x ∈ p2pDistance geo rows, 0 ≤ x := by
  cases rows with
  | nil => simp [p2pDistance]
  | cons r rs =>
      intro x hx
      simp [p2pDistance] at hx
      rcases hx with h | ⟨a, b, _, h⟩
      · simp [h]
      · rw [← h]; exact abs_nonneg _

theorem computeDistance_length (geo : Rat → Rat → Rat → Rat → Rat)
    (rows : List Row) : (computeDistance geo rows).length = rows.length := by
  rw [computeDistance, cumsum_length, p2pDistance_length]

theorem computeDistance_head (geo : Rat → Rat → Rat → Rat → Rat)
    (r : Row) (rs : List Row) :
    (computeDistance geo (r :: rs)).head? = some 0 := by
  simp [computeDistance, p2pDistance, cumsum]

theorem computeDistance_chain (geo : Rat → Rat → Rat → Rat → Rat)
    (rows : List Row) : List.Chain' (· ≤ ·) (computeDistance geo rows) :=
  cumsum_chain _ _ (p2pDistance_nonneg geo rows)

theorem cumsum_chain_anti (l : List Rat) (acc : Rat) (h : ∀ x ∈ l, x ≤ 0) :
    List.Chain' (fun a b => b ≤ a) (cumsum acc l) := by
  induction l generalizing acc with
  | nil => simp [cumsum]
  | cons x xs ih =>
      have hxs : ∀ y ∈ xs, y ≤ 0 := fun y hy => h y (by simp [hy])
      cases xs with
      | nil => simp [cumsum]
      | cons y ys =>
          refine List.Chain'.cons ?_ (ih (acc + x) hxs)
          have hy : y ≤ 0 := hxs y (by simp)
          simp [cumsum]
          linarith

theorem cumsumSkipna_map_some (l : List Rat) (acc : Rat) :
    cumsumSkipna acc (l.map some) = (cumsum acc l).map some := by
  induction l generalizing acc with
  | nil => rfl
  | cons x xs ih => simp [cumsumSkipna, cumsum, ih]

theorem reduceOption_map_some (l : List Rat) :
    (l.map some).reduceOption = l := by
  induction l with
  | nil => rfl
  | cons x xs ih => simp [List.reduceOption_cons_of_some, ih]

/-- Clamped elevation deltas feeding `ele_pos_cum`: negative per-row
deltas replaced by zero. -/
def posDeltas (rows : List Row) : List Rat :=
  (rows.zip rows.tail).map (fun p =>
    if p.2.ele - p.1.ele < 0 then 0 else p.2.ele - p.1.ele)

/-- Clamped elevation deltas feeding `ele_neg_cum`: positive per-row
deltas replaced by zero. -/
def negDeltas (rows : List Row) : List Rat :=
  (rows.zip rows.tail).map (fun p =>
    if p.2.ele - p.1.ele > 0 then 0 else p.2.ele - p.1.ele)

theorem computeElePosCum_cons (r : Row) (rs : List Row) :
    computeElePosCum (r :: rs) =
      none :: (cumsum 0 (posDeltas (r :: rs))).map some := by
  have hmap : (eleDiff (r :: rs)).map (fun o =>
        match o with
        | none => none
        | some d => some (if d < 0 then 0 else d)) =
      none :: (posDeltas (r :: rs)).map some := by
    simp only [eleDiff, posDeltas, List.map_cons, List.map_map]
    rfl
  rw [computeElePosCum, hmap]
  simp [cumsumSkipna, cumsumSkipna_map_some]

theorem computeEleNegCum_cons (r : Row) (rs : List Row) :
    computeEleNegCum (r :: rs) =
      none :: (cumsum 0 (negDeltas (r :: rs))).map some := by
  have hmap : (eleDiff (r :: rs)).map (fun o =>
        match o with
        | none => none
        | some d => some (if d > 0 then 0 else d)) =
      none :: (negDeltas (r :: rs)).map some := by
    simp only [eleDiff, negDeltas, List.map_cons, List.map_map]
    rfl
  rw [computeEleNegCum, hmap]
  simp [cumsumSkipna, cumsumSkipna_map_some]

theorem posDeltas_nonneg (rows : List Row) : ∀ x ∈ posDeltas rows, 0 ≤ x := by
  intro x hx
  simp [posDeltas] at hx
  rcases hx with ⟨a, b, _, h⟩
  split at h <;> simp [← h]
  linarith

theorem negDeltas_nonpos (rows : List Row) : ∀ x ∈ negDeltas rows, x ≤ 0 := by
  intro x hx
  simp [negDeltas] at hx
  rcases hx with ⟨a, b, _, h⟩
  split at h <;> simp [← h]
  linarith

/-- Two-point, one-segment sample table used by concrete witnesses and
counterexamples. -/
def rowA : Row := { lat := 0, lon := 0, ele := 5, seg := 1, time := 10 }

/-- Second sample row, 3 m above and one degree north of `rowA`. -/
def rowB : Row := { lat := 1, lon := 0, ele := 8, seg := 1, time := 20 }

/-- A one-segment track holding `rowA` and `rowB`, as left by its
construction (derived columns not yet recomputed). -/
def sampleTrack2 : Track :=
  { Track.init with rows := [rowA, rowB], size := 1, lastSegmentIdx := 1 }

/-- C5 (amended): on every track whose derived columns have been
recomputed, `distance` starts at exactly 0 and is non-decreasing;
`ele_pos_cum` and `ele_neg_cum` start with the NaN marker produced by
the `diff` seed — not with 0 as claimed — while all their later entries
are defined and form a non-decreasing (resp. non-increasing) sequence. -/
theorem claimC5_derived_columns (geo : Rat → Rat → Rat → Rat → Rat)
    (t : Track) (hs : Summarized geo t) (h : t.rows ≠ []) :
    t.distance.head? = some 0 ∧
    List.Chain' (· ≤ ·) t.distance ∧
    t.elePosCum.head? = some none ∧
    (∀ o ∈ t.elePosCum.tail, o.isSome) ∧
    List.Chain' (· ≤ ·) t.elePosCum.reduceOption ∧
    t.eleNegCum.head? = some none ∧
    (∀ o ∈ t.eleNegCum.tail, o.isSome) ∧
    List.Chain' (fun a b => b ≤ a) t.eleNegCum.reduceOption := by
  obtain ⟨hd, hp, hn, -, -, -⟩ := hs
  cases hr : t.rows with
  | nil => exact absurd hr h
  | cons r rs =>
      rw [hd, hp, hn, hr, computeElePosCum_cons, computeEleNegCum_cons]
      refine ⟨computeDistance_head geo r rs, computeDistance_chain geo _, rfl,
        ?_, ?_, rfl, ?_, ?_⟩
      · intro o ho
        simp at ho
        obtain ⟨x, -, hx⟩ := ho
        simp [← hx]
      · rw [List.reduceOption_cons_of_none, reduceOption_map_some]
        exact cumsum_chain _ _ (posDeltas_nonneg _)
      · intro o ho
        simp at ho
        obtain ⟨x, -, hx⟩ := ho
        simp [← hx]
      · rw [List.reduceOption_cons_of_none, reduceOption_map_some]
        exact cumsum_chain_anti _ _ (negDeltas_nonpos _)

/-- C5 witness: the amended statement evaluated on a concrete
recomputed two-row track. -/
theorem claimC5_witness :
    ((updateSummary geoTaxi sampleTrack2).getD Track.init).distance.head? = some 0 ∧
    ((updateSummary geoTaxi sampleTrack2).getD Track.init).elePosCum.head? =
      some none := by
  have hs : Summarized geoTaxi ((updateSummary geoTaxi sampleTrack2).getD Track.init) := by
    simp [Summarized, updateSummary, sampleTrack2, Track.init, rowA, rowB,
      computeDistance, p2pDistance, cumsum, computeElePosCum, computeEleNegCum,
      eleDiff, cumsumSkipna, geoTaxi]
  have hne : ((updateSummary geoTaxi sampleTrack2).getD Track.init).rows ≠ [] := by
    simp [updateSummary, sampleTrack2, Track.init, rowA, rowB]
  exact ⟨(claimC5_derived_columns geoTaxi _ hs hne).1,
    (claimC5_derived_columns geoTaxi _ hs hne).2.2.1⟩

/-- C5 counterexample: recomputing the derived columns of the concrete
two-row track yields `ele_pos_cum = [NaN, 3]`, whose first entry is the
NaN marker, not the claimed 0. -/
theorem claimC5_counterexample :
    (updateSummary geoTaxi sampleTrack2).map Track.elePosCum =
        some [none, some 3] ∧
      (updateSummary geoTaxi sampleTrack2).map Track.elePosCum ≠
        some [some 0, some 3] := by
  norm_num [updateSummary, sampleTrack2, Track.init, rowA, rowB,
    computeElePosCum, eleDiff, cumsumSkipna]
  simp

/-- Sequential composition of `divide_segment` calls (the claims quantify
over call sequences). -/
def divideMany (t : Track) (ks : List Nat) : Option Track :=
  ks.foldl (fun ot k => ot.bind (fun u => divideSegment u k)) (some t)

theorem segMax_isSome (rows : List Row) (h : rows ≠ []) :
    ∃ m, segMax rows = some m := by
  cases rows with
  | nil => exact absurd rfl h
  | cons r rs => exact ⟨_, rfl⟩

theorem divideSegment_of_ne (t : Track) (k : Nat) (h : t.rows ≠ []) :
    ∃ t', divideSegment t k = some t' ∧
      t'.rows = t.rows.mapIdx (fun i r =>
        if i < k then r else { r with seg := r.seg + 1 }) ∧
      t'.distance = t.distance ∧ t'.elePosCum = t.elePosCum ∧
      t'.eleNegCum = t.eleNegCum ∧ t'.totalDistance = t.totalDistance ∧
      t'.totalUphill = t.totalUphill ∧ t'.totalDownhill = t.totalDownhill ∧
      t'.size = t.size + 1 := by
  have hne : t.rows.mapIdx (fun i r =>
      if i < k then r else { r with seg := r.seg + 1 }) ≠ [] := by
    intro hc
    apply h
    have := congrArg List.length hc
    simpa using this
  obtain ⟨m, hm⟩ := segMax_isSome _ hne
  refine ⟨{ t with
      rows := t.rows.mapIdx (fun i r =>
        if i < k then r else { r with seg := r.seg + 1 })
      size := t.size + 1
      lastSegmentIdx := m }, ?_, rfl, rfl, rfl, rfl, rfl, rfl, rfl, rfl⟩
  simp only [divideSegment, hm]

/-- C2: every `divide_segment` call at an absolute row index adds one to
the segment id of every row at or past that index and leaves every other
column of every row untouched, so a sequence of calls composes
order-independently: a row's final segment id is its original id plus
the number of split points at or before its row index; row count and the
`distance` column are unchanged.  (The nonemptiness hypothesis excludes
the degenerate empty table, where the source's `max()` call raises.) -/
theorem claimC2_divide_compose (t : Track) (ks : List Nat) (t' : Track)
    (hne : t.rows ≠ []) (h : divideMany t ks = some t') :
    t'.rows.length = t.rows.length ∧
    t'.distance = t.distance ∧
    ∀ i, i < t.rows.length →
      (t'.rows.getD i defaultRow).seg =
          (t.rows.getD i defaultRow).seg +
            (ks.countP (fun k => decide (k ≤ i)) : Int) ∧
        (t'.rows.getD i defaultRow).lat = (t.rows.getD i defaultRow).lat ∧
        (t'.rows.getD i defaultRow).lon = (t.rows.getD i defaultRow).lon ∧
        (t'.rows.getD i defaultRow).ele = (t.rows.getD i defaultRow).ele ∧
        (t'.rows.getD i defaultRow).time = (t.rows.getD i defaultRow).time := by
  induction ks generalizing t with
  | nil =>
      have ht : t = t' := by simpa [divideMany] using h
      subst ht
      exact ⟨rfl, rfl, fun i _ => by simp⟩
  | cons k ks ih =>
      obtain ⟨t1, h1, hrows, hdist, -, -, -, -, -, -⟩ := divideSegment_of_ne t k hne
      have hlen1 : t1.rows.length = t.rows.length := by
        rw [hrows]; simp
      have hne1 : t1.rows ≠ [] := by
        intro hc
        apply hne
        have := congrArg List.length hc
        rw [hlen1] at this
        simpa using this
      have hmany : divideMany t1 ks = some t' := by
        simpa [divideMany, h1] using h
      obtain ⟨hl, hd, hfield⟩ := ih t1 hne1 hmany
      refine ⟨hl.trans hlen1, hd.trans hdist, ?_⟩
      intro i hi
      have hi1 : i < t1.rows.length := hlen1 ▸ hi
      obtain ⟨hseg, hlat, hlon, hele, htime⟩ := hfield i hi1
      have hget : t1.rows.getD i defaultRow =
          if i < k then t.rows.getD i defaultRow
          else { t.rows.getD i defaultRow with
                  seg := (t.rows.getD i defaultRow).seg + 1 } := by
        rw [hrows]
        rw [List.getD_eq_getElem _ _ (by simpa using hi),
            List.getD_eq_getElem _ _ hi, List.getElem_mapIdx]
      rw [hseg, hlat, hlon, hele, htime, hget]
      by_cases hik : i < k
      · have hki : ¬ (k ≤ i) := by omega
        simp [hik, hki, List.countP_cons]
      · have hki : k ≤ i := by omega
        simp [hik, hki, List.countP_cons]
        ring

/-- Result of dividing `sampleTrack2` at row 1 and then at row 0. -/
def sampleDivided : Track :=
  { Track.init with
      rows := [{ rowA with seg := 2 }, { rowB with seg := 3 }]
      size := 3
      lastSegmentIdx := 3 }

/-- C2 witness: dividing the concrete two-row track at rows 1 and 0
leaves row count and distance unchanged and bumps row 1's segment id by
the number of split points at or before row 1 (both of them). -/
theorem claimC2_witness :
    (sampleDivided.rows.getD 1 defaultRow).seg =
        (sampleTrack2.rows.getD 1 defaultRow).seg + 2 ∧
      sampleDivided.rows.length = sampleTrack2.rows.length ∧
      sampleDivided.distance = sampleTrack2.distance := by
  have hne : sampleTrack2.rows ≠ [] := by simp [sampleTrack2, Track.init]
  have hmany : divideMany sampleTrack2 [1, 0] = some sampleDivided := by
    simp [divideMany, divideSegment, segMax, sampleTrack2, sampleDivided,
      Track.init, rowA, rowB]
  have h := claimC2_divide_compose sampleTrack2 [1, 0] sampleDivided hne hmany
  refine ⟨?_, h.1, h.2.1⟩
  have := (h.2.2 1 (by simp [sampleTrack2, Track.init])).1
  simpa [List.countP_cons] using this

theorem elevKeptRows_eq (rows : List Row) (dist : List Rat)
    (h : rows.length = dist.length) :
    elevKeptRows rows dist =
      ((rows.zip (dist.zip dist.tail)).filter
        (fun p => decide (p.2.2 ≠ p.2.1))).map Prod.fst ++
        rows.getLast?.toList := by
  induction rows generalizing dist with
  | nil => simp [elevKeptRows]
  | cons r rs ih =>
      cases dist with
      | nil => simp at h
      | cons d ds =>
          have hlen : rs.length = ds.length := by simpa using h
          cases rs with
          | nil =>
              have hds : ds = [] := List.length_eq_zero.mp (hlen.symm ▸ rfl)
              subst hds
              simp [elevKeptRows]
          | cons r2 rs' =>
              cases ds with
              | nil => simp at hlen
              | cons d2 ds' =>
                  have ihs := ih (d2 :: ds') (by simpa using hlen)
                  have hb : (decide (d2 - d ≠ 0)) = (decide (d2 ≠ d)) := by
                    rcases eq_or_ne d2 d with hq | hq <;> simp [hq, sub_ne_zero]
                  simp only [elevKeptRows] at ihs ⊢
                  simp only [List.tail_cons, List.zip_cons_cons,
                    List.map_cons, List.filter_cons, List.getLast?_cons_cons]
                  rw [hb]
                  by_cases hq : d2 = d
                  · simpa [hq] using ihs
                  · simpa [hq] using ihs

/-- C7 (amended): the row-selection mask of elevation-aware
`insert_timestamp` drops exactly the rows whose distance delta to the
*following* row is zero and always keeps the *last* row (the source
appends `True` at the end of the mask, not the front); the first row is
dropped whenever it shares its cumulative distance with the second. -/
theorem claimC7_kept_rows (rows : List Row) (dist : List Rat)
    (h : rows.length = dist.length) :
    elevKeptRows rows dist =
        ((rows.zip (dist.zip dist.tail)).filter
          (fun p => decide (p.2.2 ≠ p.2.1))).map Prod.fst ++
          rows.getLast?.toList ∧
      (rows ≠ [] → (elevKeptRows rows dist).getLast? = rows.getLast?) := by
  have hmain := elevKeptRows_eq rows dist h
  refine ⟨hmain, fun hne => ?_⟩
  rw [hmain]
  cases hg : rows.getLast? with
  | none =>
      exact absurd (by simpa using congrArg Option.isSome hg)
        (by simpa using List.getLast?_isSome.mpr hne)
  | some a => simp

/-- Third sample row, used by the elevation-mode counterexample. -/
def rowC : Row := { lat := 2, lon := 0, ele := 4, seg := 1, time := 30 }

/-- C7 witness: on a concrete three-row table whose middle step has zero
distance delta, the kept rows match the amended characterization and the
last row survives. -/
theorem claimC7_witness :
    elevKeptRows [rowA, rowB, rowC] [0, 0, 1] = [rowB, rowC] ∧
      (elevKeptRows [rowA, rowB, rowC] [0, 0, 1]).getLast? = some rowC := by
  have h := claimC7_kept_rows [rowA, rowB, rowC] [0, 0, 1] (by simp)
  constructor
  · rw [h.1]
    norm_num
  · simpa using h.2 (by simp)

/-- C7 counterexample: with rows 0 and 1 at the same cumulative distance,
the source keeps rows 1 and 2 — the first row is *not* kept, and the row
removed (row 0) is not the one whose delta from its predecessor is zero
(row 1). -/
theorem claimC7_counterexample :
    elevKeptRows [rowA, rowB, rowC] [0, 0, 1] ≠ [rowA, rowC] ∧
      (elevKeptRows [rowA, rowB, rowC] [0, 0, 1]).head? ≠ some rowA := by
  constructor <;>
    · norm_num [elevKeptRows, rowA, rowB, rowC]

theorem updateSummary_eq (geo : Rat → Rat → Rat → Rat → Rat) (t t' : Track)
    (h : updateSummary geo t = some t') :
    t'.rows = t.rows ∧ t'.size = t.size ∧
      t'.lastSegmentIdx = t.lastSegmentIdx ∧ Summarized geo t' := by
  by_cases hr : t.rows = []
  · simp [updateSummary, hr] at h
  · rw [updateSummary, if_neg hr] at h
    obtain rfl := Option.some.inj h
    exact ⟨rfl, rfl, rfl, rfl, rfl, rfl, rfl, rfl, rfl⟩

theorem updateSummary_isSome (geo : Rat → Rat → Rat → Rat → Rat) (t : Track)
    (h : t.rows ≠ []) : ∃ t', updateSummary geo t = some t' := by
  exact ⟨_, by rw [updateSummary, if_neg h]⟩

theorem reverseRows_length (idx : Int) (rows q : List Row) :
    (reverseRows idx rows q).length = rows.length := by
  induction rows generalizing q with
  | nil => rfl
  | cons r rs ih =>
      by_cases hs : r.seg = idx
      · cases q with
        | nil => simp [reverseRows, hs, ih]
        | cons c q' => simp [reverseRows, hs, ih]
      · simp [reverseRows, hs, ih]

theorem reverseRows_map_time (idx : Int) (rows q : List Row) :
    (reverseRows idx rows q).map Row.time = rows.map Row.time := by
  induction rows generalizing q with
  | nil => rfl
  | cons r rs ih =>
      by_cases hs : r.seg = idx
      · cases q with
        | nil => simp [reverseRows, hs, ih]
        | cons c q' => simp [reverseRows, hs, ih]
      · simp [reverseRows, hs, ih]

theorem reverseRows_map_seg (idx : Int) (rows q : List Row)
    (hq : ∀ c ∈ q, c.seg = idx) :
    (reverseRows idx rows q).map Row.seg = rows.map Row.seg := by
  induction rows generalizing q with
  | nil => rfl
  | cons r rs ih =>
      by_cases hs : r.seg = idx
      · cases q with
        | nil => simp [reverseRows, hs, ih _ hq]
        | cons c q' =>
            have hc : c.seg = idx := hq c (by simp)
            have hq' : ∀ x ∈ q', x.seg = idx := fun x hx => hq x (by simp [hx])
            simp [reverseRows, hs, ih _ hq', hc]
      · simp [reverseRows, hs, ih _ hq]

theorem reverseRows_filter (idx : Int) (rows q : List Row)
    (hq : ∀ c ∈ q, c.seg = idx)
    (hlen : q.length = (rows.filter (fun r => r.seg = idx)).length) :
    (reverseRows idx rows q).filter (fun r => r.seg = idx) =
      List.zipWith (fun c r => { c with time := r.time }) q
        (rows.filter (fun r => r.seg = idx)) := by
  induction rows generalizing q with
  | nil =>
      have : q = [] := by
        simpa using List.length_eq_zero.mp (by simpa using hlen)
      subst this
      rfl
  | cons r rs ih =>
      by_cases hs : r.seg = idx
      · rw [List.filter_cons_of_pos (by simpa using hs)] at hlen ⊢
        cases q with
        | nil => simp at hlen
        | cons c q' =>
            have hc : c.seg = idx := hq c (by simp)
            have hq' : ∀ x ∈ q', x.seg = idx := fun x hx => hq x (by simp [hx])
            have hlen' : q'.length =
                (rs.filter (fun r => r.seg = idx)).length := by simpa using hlen
            simp only [reverseRows, hs, if_pos]
            rw [List.filter_cons_of_pos (by simpa using hc)]
            rw [List.zipWith_cons_cons]
            rw [ih q' hq' hlen']
      · rw [List.filter_cons_of_neg (by simpa using hs)] at hlen ⊢
        simp only [reverseRows, hs, if_neg, ite_false]
        rw [List.filter_cons_of_neg (by simpa using hs)]
        exact ih q hq hlen

theorem map_zipWith_time {δ : Type} (g : Row → δ)
    (hg : ∀ (c r : Row), g { c with time := r.time } = g c) (q fr : List Row)
    (hlen : q.length = fr.length) :
    (List.zipWith (fun c r => { c with time := r.time }) q fr).map g =
      q.map g := by
  induction q generalizing fr with
  | nil => rfl
  | cons c q' ih =>
      cases fr with
      | nil => simp at hlen
      | cons r fr' => simp [hg, ih fr' (by simpa using hlen)]

/-- C1 (amended): `reverse_segment` reverses the named segment's
latitude/longitude/elevation sequences element-for-element and leaves the
total row count and the segment-id column unchanged, but the `time`
column is left entirely unchanged in place — not reassigned in reverse
order: the index alignment of the pandas assignments cancels the
attempted reversal, so timestamps keep their original positions (and
therefore pair with the mirrored geometry in reversed order). -/
theorem claimC1_reverse_segment (geo : Rat → Rat → Rat → Rat → Rat)
    (t : Track) (index : Int) (hne : t.rows ≠ []) :
    ∃ t', reverseSegment geo t index = some t' ∧
      (getSegment t' index).map Row.lat =
        ((getSegment t index).map Row.lat).reverse ∧
      (getSegment t' index).map Row.lon =
        ((getSegment t index).map Row.lon).reverse ∧
      (getSegment t' index).map Row.ele =
        ((getSegment t index).map Row.ele).reverse ∧
      t'.rows.map Row.time = t.rows.map Row.time ∧
      t'.rows.length = t.rows.length ∧
      t'.rows.map Row.seg = t.rows.map Row.seg := by
  set q : List Row := (getSegment t index).reverse with hqdef
  set rows1 : List Row := reverseRows index t.rows q with hr1
  have hq : ∀ c ∈ q, c.seg = index := by
    intro c hc
    rw [hqdef, List.mem_reverse] at hc
    have := List.of_mem_filter hc
    simpa using this
  have hlen : q.length = (t.rows.filter (fun r => r.seg = index)).length := by
    rw [hqdef]
    simp [getSegment]
  have hne1 : rows1 ≠ [] := by
    intro hc
    apply hne
    have := congrArg List.length hc
    rw [hr1, reverseRows_length] at this
    simpa using this
  obtain ⟨t', ht'⟩ := updateSummary_isSome geo { t with rows := rows1 } hne1
  obtain ⟨hrows, -, -, -⟩ := updateSummary_eq geo _ _ ht'
  have hfilter : t'.rows.filter (fun r => r.seg = index) =
      List.zipWith (fun c r => { c with time := r.time }) q
        (t.rows.filter (fun r => r.seg = index)) := by
    rw [hrows, hr1]
    exact reverseRows_filter index t.rows q hq hlen
  have hseg' : getSegment t' index =
      List.zipWith (fun c r => { c with time := r.time }) q
        (t.rows.filter (fun r => r.seg = index)) := hfilter
  refine ⟨t', ?_, ?_, ?_, ?_, ?_, ?_, ?_⟩
  · rw [reverseSegment, ← hqdef, ← hr1]
    exact ht'
  · rw [hseg', map_zipWith_time Row.lat (fun c r => rfl) _ _ hlen, hqdef,
      getSegment, List.map_reverse]
  · rw [hseg', map_zipWith_time Row.lon (fun c r => rfl) _ _ hlen, hqdef,
      getSegment, List.map_reverse]
  · rw [hseg', map_zipWith_time Row.ele (fun c r => rfl) _ _ hlen, hqdef,
      getSegment, List.map_reverse]
  · rw [hrows, hr1, reverseRows_map_time]
  · rw [hrows, hr1, reverseRows_length]
  · rw [hrows, hr1, reverseRows_map_seg index t.rows q hq]

/-- C1 witness: reversing the single segment of the concrete two-row
track mirrors the latitude sequence while the time column stays `[10,
20]`. -/
theorem claimC1_witness :
    (reverseSegment geoTaxi sampleTrack2 1).map (fun u => u.rows.map Row.time) =
        some [10, 20] ∧
      (reverseSegment geoTaxi sampleTrack2 1).map (fun u =>
        (getSegment u 1).map Row.lat) = some [1, 0] := by
  obtain ⟨t', h1, hlat, -, -, htime, -, -⟩ :=
    claimC1_reverse_segment geoTaxi sampleTrack2 1 (by simp [sampleTrack2, Track.init])
  rw [h1]
  constructor
  · simp only [Option.map_some']
    rw [htime]
    simp [sampleTrack2, Track.init, rowA, rowB]
  · simp only [Option.map_some']
    rw [hlat]
    simp [getSegment, sampleTrack2, Track.init, rowA, rowB]

/-- C1 counterexample: after reversing the only segment of the concrete
two-row track the time column is still `[10, 20]`, not the claimed
reversed sequence `[20, 10]`. -/
theorem claimC1_counterexample :
    (reverseSegment geoTaxi sampleTrack2 1).map (fun u => u.rows.map Row.time) =
        some [10, 20] ∧
      (sampleTrack2.rows.map Row.time).reverse = [20, 10] ∧
      ([10, 20] : List Rat) ≠ [20, 10] := by
  refine ⟨?_, by simp [sampleTrack2, Track.init, rowA, rowB], by norm_num⟩
  simp [reverseSegment, reverseRows, getSegment, updateSummary,
    sampleTrack2, Track.init, rowA, rowB]

/-- C3 (amended): removing a segment id absent from the table leaves the
row data unchanged while still decrementing the `size` counter —
*provided* the decremented counter is nonzero; when `size` was 1 the
zero check fires and the whole (untouched) table is cleared besides. -/
theorem claimC3_remove_missing (geo : Rat → Rat → Rat → Rat → Rat)
    (t : Track) (index : Int) (hmiss : index ∉ t.rows.map Row.seg)
    (hne : t.rows ≠ []) (hsz : t.size ≠ 1) :
    ∃ t', removeSegment geo t index = some (t', t.size - 1) ∧
      t'.rows = t.rows ∧ t'.size = t.size - 1 := by
  have hkept : t.rows.filter (fun r => r.seg ≠ index) = t.rows := by
    apply List.filter_eq_self.mpr
    intro r hr
    have : r.seg ≠ index := by
      intro hc
      exact hmiss (by simpa [← hc] using List.mem_map_of_mem Row.seg hr)
    simpa using this
  have hne' : ({ t with
      rows := t.rows.filter (fun r => r.seg ≠ index)
      size := t.size - 1 } : Track).rows ≠ [] := by
    show t.rows.filter (fun r => r.seg ≠ index) ≠ []
    rw [hkept]
    exact hne
  obtain ⟨t'', hupd⟩ := updateSummary_isSome geo _ hne'
  obtain ⟨hrows, hsize, -, -⟩ := updateSummary_eq geo _ _ hupd
  have hsz0 : ¬ (t.size - 1 = 0) := by omega
  refine ⟨t'', ?_, ?_, ?_⟩
  · simp only [removeSegment, hupd, hsz0, if_false, ite_false]
  · simpa only [hkept] using hrows
  · simpa using hsize

/-- Fourth sample row: a second segment for the two-segment fixture. -/
def rowD : Row := { lat := 3, lon := 0, ele := 7, seg := 2, time := 40 }

/-- A two-segment track (segments 1 and 2, one point each). -/
def sampleTrackTwoSeg : Track :=
  { Track.init with rows := [rowA, rowD], size := 2, lastSegmentIdx := 2 }

/-- C3 witness: removing the nonexistent id 99 from the concrete
two-segment track keeps both rows and returns the decremented size 1. -/
theorem claimC3_witness :
    (removeSegment geoTaxi sampleTrackTwoSeg 99).map (fun p => p.1.rows) =
        some [rowA, rowD] ∧
      (removeSegment geoTaxi sampleTrackTwoSeg 99).map (fun p => p.2) =
        some 1 := by
  obtain ⟨t', h1, hrows, -⟩ := claimC3_remove_missing geoTaxi sampleTrackTwoSeg 99
    (by simp [sampleTrackTwoSeg, Track.init, rowA, rowD])
    (by simp [sampleTrackTwoSeg, Track.init])
    (by simp [sampleTrackTwoSeg, Track.init])
  rw [h1]
  constructor
  · simp only [Option.map_some']
    rw [hrows]
    simp [sampleTrackTwoSeg, Track.init]
  · simp [sampleTrackTwoSeg, Track.init]

/-- C3 counterexample: removing the nonexistent id 99 from a track whose
`size` counter is 1 does *not* leave the rows unchanged — the decrement
reaches zero and the (untouched) two-row table is cleared to empty. -/
theorem claimC3_counterexample :
    (removeSegment geoTaxi sampleTrack2 99).map (fun p => p.1.rows) =
        some [] ∧
      sampleTrack2.rows ≠ [] := by
  constructor
  · simp [removeSegment, updateSummary, sampleTrack2, Track.init, rowA, rowB]
  · simp [sampleTrack2, Track.init]

/-- C4 (code bug): removing the *last existing* segment empties the
table before `_update_summary` runs, whose `distance.iloc[-1]` read then
raises `IndexError`; the call never reaches the clear-to-empty branch or
the `return`, contradicting the claim that it yields an empty track. -/
theorem claimC4_remove_last_raises :
    removeSegment geoTaxi sampleTrack2 1 = none := by
  simp [removeSegment, updateSummary, sampleTrack2, Track.init, rowA, rowB]

theorem map_zip_snd {α β γ : Type} (g : β → γ) (l : List α) (l' : List β)
    (h : l.length = l'.length) :
    (l.zip l').map (fun p => g p.2) = l'.map g := by
  induction l generalizing l' with
  | nil =>
      have : l' = [] := List.length_eq_zero.mp (h.symm ▸ rfl)
      subst this
      rfl
  | cons x xs ih =>
      cases l' with
      | nil => simp at h
      | cons y ys => simp [ih ys (by simpa using h)]

/-- C6: flat-mode `insert_timestamp` on a track with a recomputed
distance column and a positive target speed sets every row's timestamp
to `start_time + distance / speed` hours; the first timestamp is exactly
the start time, the sequence is non-decreasing in row order, and two
consecutive timestamps tie exactly when the rows share their cumulative
distance. -/
theorem claimC6_flat_timestamps (geo : Rat → Rat → Rat → Rat → Rat)
    (t : Track) (t0 v : Rat) (hd : t.distance = computeDistance geo t.rows)
    (hne : t.rows ≠ []) (hv : 0 < v) :
    (insertTimestampFlat t t0 v).rows.map Row.time =
        t.distance.map (fun d => t0 + d / v) ∧
      ((insertTimestampFlat t t0 v).rows.map Row.time).head? = some t0 ∧
      List.Chain' (· ≤ ·) ((insertTimestampFlat t t0 v).rows.map Row.time) ∧
      ∀ i, i + 1 < t.rows.length →
        (((insertTimestampFlat t t0 v).rows.getD i defaultRow).time =
            ((insertTimestampFlat t t0 v).rows.getD (i + 1) defaultRow).time ↔
          t.distance.getD i 0 = t.distance.getD (i + 1) 0) := by
  have hlen : t.rows.length = t.distance.length := by
    rw [hd, computeDistance_length]
  have hmap : (insertTimestampFlat t t0 v).rows.map Row.time =
      t.distance.map (fun d => t0 + d / v) := by
    show ((t.rows.zip t.distance).map _).map Row.time = _
    rw [List.map_map]
    exact map_zip_snd (fun d => t0 + d / v) t.rows t.distance hlen
  refine ⟨hmap, ?_, ?_, ?_⟩
  · rw [hmap]
    cases hr : t.rows with
    | nil => exact absurd hr hne
    | cons r rs =>
        have h0 : t.distance.head? = some 0 := by
          rw [hd, hr]
          exact computeDistance_head geo r rs
        cases hdist : t.distance with
        | nil => rw [hdist] at h0; simp at h0
        | cons d ds =>
            rw [hdist] at h0
            have : d = 0 := by simpa using h0
            subst this
            simp
  · rw [hmap]
    rw [List.chain'_map]
    refine List.Chain'.imp ?_ (hd ▸ computeDistance_chain geo t.rows)
    intro a b hab
    have : a / v ≤ b / v := (div_le_div_iff_of_pos_right hv).mpr hab
    linarith
  · intro i hi
    have hi' : i < t.rows.length := by omega
    have hi1 : i + 1 < t.rows.length := hi
    have hgd : ∀ j, j < t.rows.length →
        ((insertTimestampFlat t t0 v).rows.getD j defaultRow).time =
          t0 + t.distance.getD j 0 / v := by
      intro j hj
      have hjd : j < t.distance.length := by omega
      have hj' : j < (insertTimestampFlat t t0 v).rows.length := by
        show j < ((t.rows.zip t.distance).map _).length
        simp only [List.length_map, List.length_zip]
        omega
      rw [List.getD_eq_getElem _ _ hj', List.getD_eq_getElem _ _ hjd]
      simp only [insertTimestampFlat, List.getElem_map, List.getElem_zip]
    rw [hgd i hi', hgd (i + 1) hi1]
    constructor
    · intro h
      have h2 : t.distance.getD i 0 / v = t.distance.getD (i + 1) 0 / v := by
        linarith
      have hvne : v ≠ 0 := ne_of_gt hv
      field_simp [hvne] at h2
      simpa [List.getD] using h2
    · intro h
      rw [h]

/-- C6 witness: flat timestamps on the concrete recomputed two-row track
with start time 100 and speed 2 start at exactly 100 and are
non-decreasing. -/
theorem claimC6_witness :
    ((insertTimestampFlat ((updateSummary geoTaxi sampleTrack2).getD Track.init)
          100 2).rows.map Row.time).head? = some 100 ∧
      List.Chain' (· ≤ ·)
        ((insertTimestampFlat ((updateSummary geoTaxi sampleTrack2).getD Track.init)
          100 2).rows.map Row.time) := by
  have h := claimC6_flat_timestamps geoTaxi
    ((updateSummary geoTaxi sampleTrack2).getD Track.init) 100 2
    (by simp [updateSummary, sampleTrack2, Track.init])
    (by simp [updateSummary, sampleTrack2, Track.init])
    (by norm_num)
  exact ⟨h.2.1, h.2.2.1⟩

theorem smoothWindow_bounds (L : Nat) (hL : 1 ≤ L) :
    1 ≤ smoothWindow L ∧ smoothWindow L ≤ L := by
  have h20 := Nat.div_add_mod (L + 19) 20
  have hmod := Nat.mod_lt (L + 19) (show 0 < 20 by norm_num)
  unfold smoothWindow
  omega

theorem movingAverage_length (a : List Rat) (n : Nat) (h1 : 1 ≤ n)
    (h2 : n ≤ a.length) :
    (movingAverage a n).length = a.length - n + 1 := by
  unfold movingAverage
  simp only [List.length_map, List.length_drop, List.length_mapIdx,
    cumsum_length]
  omega

theorem smoothedEle_length (el : List Rat) (h : 1 ≤ el.length) :
    (smoothedEle el).length = el.length := by
  obtain ⟨h1, h2⟩ := smoothWindow_bounds el.length h
  unfold smoothedEle
  rw [List.length_append, List.length_map, List.length_range,
    movingAverage_length el _ h1 h2]
  omega

theorem setSegmentEle_length (index : Int) (rows : List Row) (vs : List Rat) :
    (setSegmentEle index rows vs).length = rows.length := by
  induction rows generalizing vs with
  | nil => rfl
  | cons r rs ih =>
      by_cases hs : r.seg = index
      · cases vs with
        | nil => simp [setSegmentEle, hs, ih]
        | cons v vs' => simp [setSegmentEle, hs, ih]
      · simp [setSegmentEle, hs, ih]

theorem setSegmentEle_fields (index : Int) (rows : List Row) (vs : List Rat)
    (j : Nat) (hj : j < rows.length) :
    ((setSegmentEle index rows vs).getD j defaultRow).lat =
        (rows.getD j defaultRow).lat ∧
      ((setSegmentEle index rows vs).getD j defaultRow).lon =
        (rows.getD j defaultRow).lon ∧
      ((setSegmentEle index rows vs).getD j defaultRow).seg =
        (rows.getD j defaultRow).seg ∧
      ((setSegmentEle index rows vs).getD j defaultRow).time =
        (rows.getD j defaultRow).time ∧
      ((rows.getD j defaultRow).seg ≠ index →
        (setSegmentEle index rows vs).getD j defaultRow =
          rows.getD j defaultRow) := by
  induction rows generalizing vs j with
  | nil => simp at hj
  | cons r rs ih =>
      by_cases hs : r.seg = index
      · cases vs with
        | nil =>
            cases j with
            | zero => simp [setSegmentEle, hs]
            | succ j' => simpa [setSegmentEle, hs] using ih [] j' (by simpa using hj)
        | cons v vs' =>
            cases j with
            | zero => simp [setSegmentEle, hs]
            | succ j' => simpa [setSegmentEle, hs] using ih vs' j' (by simpa using hj)
      · cases j with
        | zero => simp [setSegmentEle, hs]
        | succ j' => simpa [setSegmentEle, hs] using ih vs j' (by simpa using hj)

theorem setSegmentEle_filter (index : Int) (rows : List Row) (vs : List Rat)
    (hlen : vs.length = (rows.filter (fun r => r.seg = index)).length) :
    ((setSegmentEle index rows vs).filter (fun r => r.seg = index)).map Row.ele
      = vs := by
  induction rows generalizing vs with
  | nil =>
      have : vs = [] := List.length_eq_zero.mp (by simpa using hlen)
      subst this
      rfl
  | cons r rs ih =>
      by_cases hs : r.seg = index
      · rw [List.filter_cons_of_pos (by simpa using hs)] at hlen
        cases vs with
        | nil => simp at hlen
        | cons v vs' =>
            simp only [setSegmentEle, hs, if_pos]
            rw [List.filter_cons_of_pos (by simp [hs])]
            simp only [List.map_cons]
            rw [ih vs' (by simp at hlen; exact hlen)]
      · rw [List.filter_cons_of_neg (by simpa using hs)] at hlen
        simp only [setSegmentEle, hs, if_neg, ite_false]
        rw [List.filter_cons_of_neg (by simpa using hs)]
        exact ih vs hlen

/-- C10: on a non-empty segment of `L` points, `smooth_elevation` uses
the window `n = ceil(0.05 * L)` with `1 <= n <= L`, a moving average of
`L - n + 1` values preceded by a lead-in ramp of `n - 1` values, so the
replacement elevation sequence has exactly one value per original point;
the operation rewrites only the `ele` column of that segment, leaving
the row count, every other column of every row, every other segment, and
the derived columns and summary scalars untouched. -/
theorem claimC10_smooth_elevation (t : Track) (index : Int)
    (hL : 1 ≤ (getSegment t index).length) :
    1 ≤ smoothWindow (getSegment t index).length ∧
      smoothWindow (getSegment t index).length ≤ (getSegment t index).length ∧
      (movingAverage ((getSegment t index).map Row.ele)
          (smoothWindow (getSegment t index).length)).length =
        (getSegment t index).length -
          smoothWindow (getSegment t index).length + 1 ∧
      (smoothedEle ((getSegment t index).map Row.ele)).length =
        (getSegment t index).length ∧
      (smoothElevation t index).rows.length = t.rows.length ∧
      (getSegment (smoothElevation t index) index).map Row.ele =
        smoothedEle ((getSegment t index).map Row.ele) ∧
      (∀ j, j < t.rows.length →
        ((smoothElevation t index).rows.getD j defaultRow).lat =
            (t.rows.getD j defaultRow).lat ∧
          ((smoothElevation t index).rows.getD j defaultRow).lon =
            (t.rows.getD j defaultRow).lon ∧
          ((smoothElevation t index).rows.getD j defaultRow).seg =
            (t.rows.getD j defaultRow).seg ∧
          ((smoothElevation t index).rows.getD j defaultRow).time =
            (t.rows.getD j defaultRow).time ∧
          ((t.rows.getD j defaultRow).seg ≠ index →
            (smoothElevation t index).rows.getD j defaultRow =
              t.rows.getD j defaultRow)) ∧
      (smoothElevation t index).distance = t.distance ∧
      (smoothElevation t index).elePosCum = t.elePosCum ∧
      (smoothElevation t index).eleNegCum = t.eleNegCum ∧
      (smoothElevation t index).totalDistance = t.totalDistance ∧
      (smoothElevation t index).totalUphill = t.totalUphill ∧
      (smoothElevation t index).totalDownhill = t.totalDownhill := by
  have hellen : ((getSegment t index).map Row.ele).length =
      (getSegment t index).length := List.length_map _ _
  obtain ⟨h1, h2⟩ := smoothWindow_bounds (getSegment t index).length hL
  have hma : (movingAverage ((getSegment t index).map Row.ele)
      (smoothWindow (getSegment t index).length)).length =
      (getSegment t index).length - smoothWindow (getSegment t index).length
        + 1 := by
    have := movingAverage_length ((getSegment t index).map Row.ele)
      (smoothWindow (getSegment t index).length)
      (by simpa [hellen]) (by simpa [hellen] using h2)
    simpa [hellen] using this
  have hsm : (smoothedEle ((getSegment t index).map Row.ele)).length =
      (getSegment t index).length := by
    have := smoothedEle_length ((getSegment t index).map Row.ele)
      (by simpa [hellen] using hL)
    simpa [hellen] using this
  refine ⟨h1, h2, hma, hsm, setSegmentEle_length _ _ _, ?_,
    fun j hj => setSegmentEle_fields _ _ _ j hj, rfl, rfl, rfl, rfl, rfl, rfl⟩
  exact setSegmentEle_filter index t.rows _ (by rw [hsm]; rfl)

/-- C10 witness: smoothing the single two-point segment of the concrete
track uses window 1, produces a two-value replacement sequence and keeps
the row count at 2. -/
theorem claimC10_witness :
    1 ≤ smoothWindow (getSegment sampleTrack2 1).length ∧
      (smoothedEle ((getSegment sampleTrack2 1).map Row.ele)).length =
        (getSegment sampleTrack2 1).length ∧
      (smoothElevation sampleTrack2 1).rows.length =
        sampleTrack2.rows.length ∧
      (smoothElevation sampleTrack2 1).distance = sampleTrack2.distance := by
  have h := claimC10_smooth_elevation sampleTrack2 1
    (by simp [getSegment, sampleTrack2, Track.init, rowA, rowB])
  exact ⟨h.1, h.2.2.2.1, h.2.2.2.2.1, h.2.2.2.2.2.2.2.1⟩

/-- Equality of the three derived columns and the three summary scalars
between two track states (what "the summary retains its values" means). -/
def FrameEq (t t' : Track) : Prop :=
  t'.distance = t.distance ∧ t'.elePosCum = t.elePosCum ∧
    t'.eleNegCum = t.eleNegCum ∧ t'.totalDistance = t.totalDistance ∧
    t'.totalUphill = t.totalUphill ∧ t'.totalDownhill = t.totalDownhill

/-- C8: `add_gpx`, `reverse_segment`, `remove_segment` (when the zeroed
counter branch is not taken) and `change_order` leave the track in a
freshly recomputed summary state, while `divide_segment`,
`fix_elevation` and `smooth_elevation` leave every derived column and
every summary scalar with exactly its prior value (no refresh). -/
theorem claimC8_summary_refresh (geo : Rat → Rat → Rat → Rat → Rat)
    (fix : List Row → List Rat → List Rat) (t : Track) :
    (∀ k t', divideSegment t k = some t' → FrameEq t t') ∧
      (∀ index, FrameEq t (smoothElevation t index)) ∧
      (∀ index, FrameEq t (fixElevation fix t index)) ∧
      (∀ pts t', addGpx geo t pts = some t' → Summarized geo t') ∧
      (∀ index t', reverseSegment geo t index = some t' → Summarized geo t') ∧
      (∀ index t' s, removeSegment geo t index = some (t', s) → s ≠ 0 →
        Summarized geo t') ∧
      (∀ ord t', changeOrder geo t ord = some t' → Summarized geo t') := by
  refine ⟨?_, ?_, ?_, ?_, ?_, ?_, ?_⟩
  · intro k t' h
    cases hm : segMax (t.rows.mapIdx (fun i r =>
        if i < k then r else { r with seg := r.seg + 1 })) with
    | none => simp [divideSegment, hm] at h
    | some m =>
        simp only [divideSegment, hm] at h
        obtain rfl := Option.some.inj h
        exact ⟨rfl, rfl, rfl, rfl, rfl, rfl⟩
  · intro index
    exact ⟨rfl, rfl, rfl, rfl, rfl, rfl⟩
  · intro index
    exact ⟨rfl, rfl, rfl, rfl, rfl, rfl⟩
  · intro pts t' h
    exact (updateSummary_eq geo _ _ h).2.2.2
  · intro index t' h
    exact (updateSummary_eq geo _ _ h).2.2.2
  · intro index t' s h hs
    simp only [removeSegment] at h
    cases hu : updateSummary geo { t with
        rows := t.rows.filter (fun r => r.seg ≠ index)
        size := t.size - 1 } with
    | none => rw [hu] at h; simp at h
    | some t1 =>
        rw [hu] at h
        dsimp only [] at h
        by_cases hz : t.size - 1 = 0
        · rw [if_pos hz] at h
          simp only [Option.some.injEq, Prod.mk.injEq] at h
          exact absurd (h.2.symm.trans hz) hs
        · rw [if_neg hz] at h
          simp only [Option.some.injEq, Prod.mk.injEq] at h
          exact h.1 ▸ (updateSummary_eq geo _ _ hu).2.2.2
  · intro ord t' h
    exact (updateSummary_eq geo _ _ h).2.2.2

/-- C8 witness: on the concrete two-row track, smoothing, (abstracted)
elevation fixing and dividing keep the summary values, while reversing
leaves a freshly summarized state. -/
theorem claimC8_witness :
    FrameEq sampleTrack2 (smoothElevation sampleTrack2 1) ∧
      FrameEq sampleTrack2 (fixElevation (fun _ _ => []) sampleTrack2 1) ∧
      FrameEq sampleTrack2 ((divideSegment sampleTrack2 1).getD Track.init) ∧
      Summarized geoTaxi
        ((reverseSegment geoTaxi sampleTrack2 1).getD Track.init) := by
  have h := claimC8_summary_refresh geoTaxi (fun _ _ => []) sampleTrack2
  refine ⟨h.2.1 1, h.2.2.1 1, ?_, ?_⟩
  · obtain ⟨t1, ht1, -⟩ := divideSegment_of_ne sampleTrack2 1
      (by simp [sampleTrack2, Track.init])
    have : (divideSegment sampleTrack2 1).getD Track.init = t1 := by
      rw [ht1]; rfl
    exact this ▸ h.1 1 t1 ht1
  · have hne1 : ({ sampleTrack2 with
        rows := reverseRows 1 sampleTrack2.rows
          (getSegment sampleTrack2 1).reverse } : Track).rows ≠ [] := by
      show reverseRows 1 sampleTrack2.rows (getSegment sampleTrack2 1).reverse ≠ []
      intro hc
      have := congrArg List.length hc
      rw [reverseRows_length] at this
      simp [sampleTrack2, Track.init] at this
    obtain ⟨t1, ht1⟩ := updateSummary_isSome geoTaxi _ hne1
    have hrev : reverseSegment geoTaxi sampleTrack2 1 = some t1 := ht1
    have : (reverseSegment geoTaxi sampleTrack2 1).getD Track.init = t1 := by
      rw [hrev]; rfl
    exact this ▸ h.2.2.2.2.1 1 t1 hrev

theorem foldl_max_ge_init (l : List Int) (a : Int) : a ≤ l.foldl max a := by
  induction l generalizing a with
  | nil => simp
  | cons x xs ih => exact le_trans (le_max_left a x) (ih (max a x))

theorem foldl_max_ge_mem (l : List Int) (a : Int) :
    ∀ x ∈ l, x ≤ l.foldl max a := by
  induction l generalizing a with
  | nil => simp
  | cons y ys ih =>
      intro x hx
      rcases List.mem_cons.mp hx with h | h
      · subst h
        exact le_trans (le_max_right a x) (foldl_max_ge_init ys (max a x))
      · exact ih (max a y) x h

theorem foldl_max_attained (l : List Int) (a : Int) :
    l.foldl max a = a ∨ l.foldl max a ∈ l := by
  induction l generalizing a with
  | nil => simp
  | cons y ys ih =>
      rcases ih (max a y) with h | h
      · rcases max_cases a y with ⟨hm, -⟩ | ⟨hm, -⟩
        · exact Or.inl (by rw [List.foldl_cons, h, hm])
        · exact Or.inr (by rw [List.foldl_cons, h, hm]; exact List.mem_cons_self y ys)
      · exact Or.inr (List.mem_cons_of_mem y h)

theorem segMax_spec (rows : List Row) (m : Int) (h : segMax rows = some m) :
    (∀ r ∈ rows, r.seg ≤ m) ∧ ∃ r ∈ rows, r.seg = m := by
  cases rows with
  | nil => simp [segMax] at h
  | cons r rs =>
      have hm : rs.foldl (fun acc x => max acc x.seg) r.seg = m := by
        simpa [segMax] using h
      have hfold : ∀ (l : List Row) (a : Int),
          l.foldl (fun acc x => max acc x.seg) a = (l.map Row.seg).foldl max a := by
        intro l
        induction l with
        | nil => intro a; rfl
        | cons y ys ihy => intro a; simp [ihy]
      rw [hfold] at hm
      constructor
      · intro x hx
        rcases List.mem_cons.mp hx with hh | hh
        · subst hh
          exact hm ▸ foldl_max_ge_init _ _
        · exact hm ▸ foldl_max_ge_mem _ _ x.seg (List.mem_map_of_mem Row.seg hh)
      · rcases foldl_max_attained (rs.map Row.seg) r.seg with ha | ha
        · exact ⟨r, List.mem_cons_self r rs, by rw [← hm, ha]⟩
        · obtain ⟨x, hx, hxs⟩ := List.mem_map.mp ha
          exact ⟨x, List.mem_cons_of_mem r hx, by rw [hxs, hm]⟩

/-- C9 (amended): `last_segment_idx` is incremented by `add_gpx` and
left unchanged by `reverse_segment`, `remove_segment` and
`change_order`; `divide_segment` recomputes it as the maximum segment id
present after the split, so it does not decrease *provided* the call
happens while `last_segment_idx` equals the table's current maximum
segment id — after removing the highest-numbered segments, a subsequent
`divide_segment` can lower it (see the counterexample), so it is neither
globally monotone nor always the highest id ever assigned. -/
theorem claimC9_last_segment_idx (geo : Rat → Rat → Rat → Rat → Rat)
    (t : Track) :
    (∀ pts t', addGpx geo t pts = some t' →
        t'.lastSegmentIdx = t.lastSegmentIdx + 1 ∧
          t.lastSegmentIdx ≤ t'.lastSegmentIdx) ∧
      (∀ index t', reverseSegment geo t index = some t' →
        t'.lastSegmentIdx = t.lastSegmentIdx) ∧
      (∀ index t' s, removeSegment geo t index = some (t', s) →
        t'.lastSegmentIdx = t.lastSegmentIdx) ∧
      (∀ ord t', changeOrder geo t ord = some t' →
        t'.lastSegmentIdx = t.lastSegmentIdx) ∧
      (∀ k t', segMax t.rows = some t.lastSegmentIdx →
        divideSegment t k = some t' →
          t.lastSegmentIdx ≤ t'.lastSegmentIdx) := by
  refine ⟨?_, ?_, ?_, ?_, ?_⟩
  · intro pts t' h
    have h1 := (updateSummary_eq geo _ _ h).2.2.1
    dsimp only [] at h1
    exact ⟨h1, by omega⟩
  · intro index t' h
    exact (updateSummary_eq geo _ _ h).2.2.1
  · intro index t' s h
    simp only [removeSegment] at h
    cases hu : updateSummary geo { t with
        rows := t.rows.filter (fun r => r.seg ≠ index)
        size := t.size - 1 } with
    | none => rw [hu] at h; simp at h
    | some t1 =>
        rw [hu] at h
        dsimp only [] at h
        have ht1 : t1.lastSegmentIdx = t.lastSegmentIdx :=
          (updateSummary_eq geo _ _ hu).2.2.1
        by_cases hz : t.size - 1 = 0
        · rw [if_pos hz] at h
          simp only [Option.some.injEq, Prod.mk.injEq] at h
          rw [← h.1]
          exact ht1
        · rw [if_neg hz] at h
          simp only [Option.some.injEq, Prod.mk.injEq] at h
          rw [← h.1]
          exact ht1
  · intro ord t' h
    exact (updateSummary_eq geo _ _ h).2.2.1
  · intro k t' hlast h
    cases hm : segMax (t.rows.mapIdx (fun i r =>
        if i < k then r else { r with seg := r.seg + 1 })) with
    | none => simp [divideSegment, hm] at h
    | some m =>
        simp only [divideSegment, hm] at h
        obtain rfl := Option.some.inj h
        show t.lastSegmentIdx ≤ m
        obtain ⟨-, r, hr, hrs⟩ := segMax_spec t.rows _ hlast
        obtain ⟨j, hj, hjr⟩ := List.getElem_of_mem hr
        have hjlt : j < (t.rows.mapIdx (fun i r =>
            if i < k then r else { r with seg := r.seg + 1 })).length := by
          simpa using hj
        have hnew : (t.rows.mapIdx (fun i r =>
            if i < k then r else { r with seg := r.seg + 1 })).get ⟨j, hjlt⟩ =
            if j < k then r else { r with seg := r.seg + 1 } := by
          rw [List.get_eq_getElem, List.getElem_mapIdx, hjr]
        have hge : r.seg ≤ ((t.rows.mapIdx (fun i r =>
            if i < k then r else { r with seg := r.seg + 1 })).get ⟨j, hjlt⟩).seg := by
          rw [hnew]
          by_cases hik : j < k <;> simp [hik]
        have hle := (segMax_spec _ _ hm).1 _ (List.get_mem _ _ hjlt)
        omega

/-- Three single-point gpx files loaded in sequence (segments 1, 2, 3). -/
def c9AfterAdds : Option Track :=
  ((addGpx geoTaxi Track.init
      [{ lat := 0, lon := 0, ele := 0, time := 0 }]).bind (fun u =>
    addGpx geoTaxi u [{ lat := 1, lon := 0, ele := 0, time := 0 }])).bind (fun u =>
    addGpx geoTaxi u [{ lat := 2, lon := 0, ele := 0, time := 0 }])

/-- State after removing the two highest segments (3 then 2): only
segment 1 remains while `last_segment_idx` is still 3. -/
def c9AfterRemoves : Option Track :=
  (c9AfterAdds.bind (fun u => (removeSegment geoTaxi u 3).map Prod.fst)).bind
    (fun u => (removeSegment geoTaxi u 2).map Prod.fst)

/-- State after then dividing at row 0. -/
def c9AfterDivide : Option Track :=
  c9AfterRemoves.bind (fun u => divideSegment u 0)

/-- C9 counterexample: after adding three one-point files and removing
segments 3 and 2, `last_segment_idx` is 3; the next `divide_segment`
recomputes it as the new table maximum 2 — it *decreases*, refuting
monotonicity and the highest-id-ever-assigned invariant. -/
theorem claimC9_counterexample :
    c9AfterRemoves.map Track.lastSegmentIdx = some 3 ∧
      c9AfterDivide.map Track.lastSegmentIdx = some 2 ∧
      ¬ ((3 : Int) ≤ 2) := by
  refine ⟨?_, ?_, by norm_num⟩ <;>
    simp [c9AfterDivide, c9AfterRemoves, c9AfterAdds, addGpx, removeSegment,
      divideSegment, segMax, updateSummary, Track.init, geoTaxi,
      computeDistance, p2pDistance, cumsum, computeElePosCum,
      computeEleNegCum, eleDiff, cumsumSkipna, computeExtremes]

/-- C9 witness: adding a one-point gpx to the concrete one-segment track
bumps `last_segment_idx` from 1 to 2. -/
theorem claimC9_witness :
    (addGpx geoTaxi sampleTrack2
        [{ lat := 5, lon := 0, ele := 0, time := 0 }]).map
      Track.lastSegmentIdx = some 2 := by
  obtain ⟨t', ht'⟩ := updateSummary_isSome geoTaxi
    { sampleTrack2 with
        size := sampleTrack2.size + 1
        lastSegmentIdx := sampleTrack2.lastSegmentIdx + 1
        rows := sampleTrack2.rows ++
          [{ lat := 5, lon := 0, ele := 0,
             seg := sampleTrack2.lastSegmentIdx + 1, time := 0 }] }
    (by simp [sampleTrack2, Track.init])
  have hadd : addGpx geoTaxi sampleTrack2
      [{ lat := 5, lon := 0, ele := 0, time := 0 }] = some t' := ht'
  have h := (claimC9_last_segment_idx geoTaxi sampleTrack2).1 _ t' hadd
  rw [hadd]
  simp only [Option.map_some']
  rw [h.1]
  simp [sampleTrack2, Track.init]
